import Mathlib

/-!
Verification of the capnez schema synthesizer (crate `codegen`, file
`src/codegen/src/lib.rs`), which translates annotated Rust declarations into
Cap'n Proto schema text.

The embedding below mirrors the Rust source:

* `CapnpType` embeds the Rust enum `CapnpType` (constructors `Primitive`,
  `Struct`, `List`, `Enum`, `Optional`, `SerdeOnly`; here `primitive`,
  `structRef`, `list`, `enumRef`, `optional`, `serdeOnly`).
* `CapnpType.render` embeds `impl Display for CapnpType`.
* `map_ty` embeds `fn map_ty` (together with `extract_generic_ty`); the Rust
  panics become `Except` errors carrying the panic's identity.  Host types are
  modelled by `HostType`: a single-segment `Type::Path` with its generic
  arguments, or a fixed-size array.
* `to_camel_case` embeds `fn to_camel_case`.
* `mk_enum` embeds the variant-processing part of `fn mk_enum`.
* `sort_deps` embeds `fn sort_deps` with its nested `fn visit`; the `for`
  loops become the explicit recursions `visitFields` (over the fields of one
  struct) and `visitList` (over the top-level struct list).  The Rust
  recursion terminates because `seen.insert` guards every recursive call, so
  the call depth is at most the number of distinct names plus one; the
  embedding makes this bound explicit as a fuel argument fixed to
  `items.length + 1`.
* `get_struct_name` embeds `fn get_struct_name` (the `while let` loop over
  nested lists becomes `unwrap_list`).
* `generate_schema_text` embeds the schema-string construction inside
  `fn generate_schema` (header, enums, structs in `sort_deps` order,
  interfaces); file-system traversal and the downstream compiler invocation
  are outside the embedding.
-/

namespace Capnez

/-- Embeds the Rust enum `SerializationType` from `src/codegen/src/lib.rs`. -/
inductive SerializationType where
  | capnp
  | serde
  | both
deriving DecidableEq

/-- Embeds the Rust enum `CapnpType` from `src/codegen/src/lib.rs`.
`structRef`, `enumRef`, `serdeOnly` correspond to `Struct`, `Enum`,
`SerdeOnly` in the source. -/
inductive CapnpType where
  | primitive (p : String)
  | structRef (n : String)
  | list (inner : CapnpType)
  | enumRef (n : String)
  | optional (inner : CapnpType)
  | serdeOnly (n : String)
deriving DecidableEq

/-- Embeds `impl std::fmt::Display for CapnpType`. -/
def CapnpType.render : CapnpType → String
  | .primitive p => p
  | .structRef n => n
  | .list inner => "List(" ++ inner.render ++ ")"
  | .enumRef n => n
  | .optional inner =>
      "union \x7b\n  value @0 :" ++ inner.render ++ ";\n  none @1 :Void;\n\x7d"
  | .serdeOnly n => n

/-- Embeds the Rust struct `CapnpStruct`: a name plus the field list
`(name, ordinal, type)`. -/
structure CapnpStruct where
  name : String
  fields : List (String × Nat × CapnpType)
  has_serde : Bool
deriving DecidableEq

/-- Embeds the Rust struct `CapnpEnum`: a name plus the variant list
`(name, optional payload type)`. -/
structure CapnpEnum where
  name : String
  variants : List (String × Option CapnpType)
  has_serde : Bool
deriving DecidableEq

/-- Embeds the Rust struct `CapnpInterface`: a name plus the method list
`(name, params, optional return type)`. -/
structure CapnpInterface where
  name : String
  methods : List (String × List (String × CapnpType) × Option CapnpType)
deriving DecidableEq

/-- Model of the host (Rust) types fed to `map_ty`: a `syn::Type::Path`
(last-segment identifier plus generic type arguments) or a fixed-size array;
`other` stands for every other `syn::Type` shape, which the source rejects. -/
inductive HostType where
  | path (name : String) (args : List HostType)
  | array (elem : HostType) (size : Nat)
  | other

/-- The identities of the `panic!` calls in `map_ty`, `extract_generic_ty`
and `mk_enum`; the embedding turns each panic into a typed error. -/
inductive GenError where
  | unsupportedType
  | missingTypeParameter
  | mapOnlySerde
  | setOnlySerde
  | multiFieldVariant
deriving DecidableEq

/-- Embeds `fn map_ty` together with `fn extract_generic_ty` from
`src/codegen/src/lib.rs`.  The match arms appear in source order; the
catch-all arm `name => CapnpType::Struct(name.to_string())` is the final
`else`. -/
def map_ty (ser : SerializationType) : HostType → Except GenError CapnpType
  | .path id args =>
      if id = "String" then .ok (.primitive "Text")
      else if id = "u32" then .ok (.primitive "UInt32")
      else if id = "u64" then .ok (.primitive "UInt64")
      else if id = "bool" then .ok (.primitive "Bool")
      else if id = "Option" then
        match args with
        | a :: _ => (map_ty ser a).map CapnpType.optional
        | [] => .error .missingTypeParameter
      else if id = "Vec" then
        match args with
        | a :: _ => (map_ty ser a).map CapnpType.list
        | [] => .error .missingTypeParameter
      else if id = "HashMap" ∨ id = "BTreeMap" then
        if ser = .serde then .ok (.serdeOnly id) else .error .mapOnlySerde
      else if id = "HashSet" ∨ id = "BTreeSet" then
        if ser = .serde then .ok (.serdeOnly id) else .error .setOnlySerde
      else .ok (.structRef id)
  | .array elem _ => (map_ty ser elem).map CapnpType.list
  | .other => .error .unsupportedType

/-- Embeds `fn to_camel_case`: walking the characters, an underscore sets the
capitalize flag, a character met with the flag set is pushed uppercased, any
other character is pushed unchanged.  The flag starts as `is_type`. -/
def to_camel_case (s : String) (is_type : Bool) : String :=
  (s.toList.foldl
    (fun (acc : String × Bool) c =>
      if c = '_' then (acc.1, true)
      else if acc.2 then (acc.1.push c.toUpper, false)
      else (acc.1.push c, false))
    ("", is_type)).1

/-- Model of `syn::Fields` as seen by `mk_enum`: a tuple-style variant with
its payload types, a struct-style variant with named fields, or a unit
variant. -/
inductive VariantFields where
  | unnamed (tys : List HostType)
  | named (fields : List (String × HostType))
  | unit

/-- Embeds the per-variant match inside `fn mk_enum` (codegen version):
exactly one unnamed field gives a payload, any other unnamed arity panics
(`multiFieldVariant`), and every other shape (named fields or unit) gives no
payload. -/
def mk_enum_variant (ser : SerializationType) (v : String × VariantFields) :
    Except GenError (String × Option CapnpType) :=
  match v.2 with
  | .unnamed [t] => (map_ty ser t).map (fun c => (to_camel_case v.1 false, some c))
  | .unnamed _ => .error .multiFieldVariant
  | _ => .ok (to_camel_case v.1 false, none)

/-- The variant loop of `fn mk_enum`: variants are processed in order and the
first panic aborts the run. -/
def mk_variants (ser : SerializationType) :
    List (String × VariantFields) → Except GenError (List (String × Option CapnpType))
  | [] => .ok []
  | v :: rest =>
      match mk_enum_variant ser v with
      | .error e => .error e
      | .ok c =>
          match mk_variants ser rest with
          | .error e => .error e
          | .ok cs => .ok (c :: cs)

/-- Embeds `fn mk_enum` from `src/codegen/src/lib.rs`. -/
def mk_enum (ser : SerializationType) (name : String)
    (variants : List (String × VariantFields)) : Except GenError CapnpEnum :=
  (mk_variants ser variants).map
    (fun vs =>
      { name := to_camel_case name true
        variants := vs
        has_serde := ser = .serde ∨ ser = .both })

/-- The `while let CapnpType::List(next) = inner_ty` loop inside
`fn get_struct_name`. -/
def unwrap_list : CapnpType → CapnpType
  | .list next => unwrap_list next
  | t => t

/-- Embeds `fn get_struct_name`: a direct struct reference yields its name; a
list is unwrapped through nested lists and yields the innermost name when
that is a struct reference; everything else (including `Optional`) yields
nothing. -/
def get_struct_name : CapnpType → Option String
  | .structRef name => some name
  | .list inner =>
      match unwrap_list inner with
      | .structRef name => some name
      | _ => none
  | _ => none

/-- `items.iter().find(|x| x.name == name)` from `fn visit`. -/
def lookup (items : List CapnpStruct) (n : String) : Option CapnpStruct :=
  items.find? (fun x => x.name == n)

/-- The dependency edges `fn visit` follows out of one struct: for each field
in order, `get_struct_name` then the lookup among the declared structs. -/
def depsOf (items : List CapnpStruct) (s : CapnpStruct) : List CapnpStruct :=
  s.fields.filterMap (fun f => (get_struct_name f.2.2).bind (lookup items))

/-- The dependencies contributed by a list of fields (the tail of `depsOf`
while the field loop of `fn visit` is running). -/
def fieldDeps (items : List CapnpStruct) (fs : List (String × Nat × CapnpType)) :
    List CapnpStruct :=
  fs.filterMap (fun f => (get_struct_name f.2.2).bind (lookup items))

/-- The `for (_, _, ty) in &s.fields` loop inside `fn visit`, parameterized
by the recursive call on one dependency (`vis` is `visit` at the next fuel
level). -/
def visitFieldsAux
    (vis : CapnpStruct → List String → List CapnpStruct →
      List String × List CapnpStruct)
    (items : List CapnpStruct) :
    List (String × Nat × CapnpType) → List String → List CapnpStruct →
    List String × List CapnpStruct
  | [], seen, order => (seen, order)
  | f :: rest, seen, order =>
      let p :=
        match get_struct_name f.2.2 with
        | some name =>
            match lookup items name with
            | some dep => vis dep seen order
            | none => (seen, order)
        | none => (seen, order)
      visitFieldsAux vis items rest p.1 p.2

/-- Embeds the nested `fn visit` of `fn sort_deps`: early return when the
name was already seen, otherwise insert the name, follow each field's
dependency, then push the struct.  `fuel` bounds the recursion depth (the
Rust recursion is bounded by the number of distinct names, see
`sort_deps`). -/
def visit (fuel : Nat) (items : List CapnpStruct) (s : CapnpStruct)
    (seen : List String) (order : List CapnpStruct) :
    List String × List CapnpStruct :=
  match fuel with
  | 0 => (seen, order)
  | fuel + 1 =>
      if s.name ∈ seen then (seen, order)
      else
        let p := visitFieldsAux (fun t a b => visit fuel items t a b) items
          s.fields (s.name :: seen) order
        (p.1, p.2 ++ [s])

/-- The field loop at one fuel level. -/
def visitFields (fuel : Nat) (items : List CapnpStruct)
    (fs : List (String × Nat × CapnpType))
    (seen : List String) (order : List CapnpStruct) :
    List String × List CapnpStruct :=
  visitFieldsAux (fun t a b => visit fuel items t a b) items fs seen order

/-- The `for s in items` loop of `fn sort_deps`. -/
def visitList (fuel : Nat) (items : List CapnpStruct) :
    List CapnpStruct → List String → List CapnpStruct →
    List String × List CapnpStruct
  | [], seen, order => (seen, order)
  | s :: rest, seen, order =>
      let p := visit fuel items s seen order
      visitList fuel items rest p.1 p.2

/-- Embeds `fn sort_deps`.  The fuel `items.length + 1` is an upper bound on
the depth of the Rust recursion: every productive call inserts a fresh name
of a declared struct into `seen`. -/
def sort_deps (items : List CapnpStruct) : List CapnpStruct :=
  (visitList (items.length + 1) items items [] []).2

/-- One struct declaration as printed by `fn generate_schema`. -/
def structSection (s : CapnpStruct) : String :=
  "struct " ++ s.name ++ " \x7b\n" ++
  String.join (s.fields.map
    (fun f => "  " ++ f.1 ++ " @" ++ toString f.2.1 ++ " :" ++ f.2.2.render ++ ";\n")) ++
  "\x7d\n\n"

/-- One sum-type declaration as printed by `fn generate_schema`: a `struct`
with one field per variant (payload type, or `Void`) when any variant carries
a payload, a plain `enum` otherwise; ordinals come from `enumerate()`. -/
def enumSection (e : CapnpEnum) : String :=
  if e.variants.any (fun v => v.2.isSome) then
    "struct " ++ e.name ++ " \x7b\n" ++
    String.join (e.variants.enum.map
      (fun iv =>
        "  " ++ iv.2.1 ++ " @" ++ toString iv.1 ++ " :" ++
        (match iv.2.2 with
         | some t => t.render
         | none => "Void") ++ ";\n")) ++
    "\x7d\n\n"
  else
    "enum " ++ e.name ++ " \x7b\n" ++
    String.join (e.variants.enum.map
      (fun iv => "  " ++ iv.2.1 ++ " @" ++ toString iv.1 ++ ";\n")) ++
    "\x7d\n\n"

/-- The comma-separated parameter list of one interface method. -/
def paramList (ps : List (String × CapnpType)) : String :=
  String.intercalate ", " (ps.map (fun p => p.1 ++ " :" ++ p.2.render))

/-- One method line as printed by `fn generate_schema`; the source prints the
literal ordinal `@0` for every method (`schema.push_str(&format!("  {} @0 (",
name))`). -/
def methodLine (m : String × List (String × CapnpType) × Option CapnpType) :
    String :=
  "  " ++ m.1 ++ " @0 (" ++ paramList m.2.1 ++ ")" ++
  (match m.2.2 with
   | some r => " -> " ++ r.render
   | none => "") ++ ";\n"

/-- One interface declaration as printed by `fn generate_schema`. -/
def interfaceSection (i : CapnpInterface) : String :=
  "interface " ++ i.name ++ " \x7b\n" ++
  String.join (i.methods.map methodLine) ++
  "\x7d\n\n"

/-- Embeds the schema-string construction of `fn generate_schema`: the fixed
file-identifier header, then enums, then structs in `sort_deps` order, then
interfaces. -/
def generate_schema_text (enums : List CapnpEnum) (structs : List CapnpStruct)
    (interfaces : List CapnpInterface) : String :=
  "@0xabcdefabcdefabcdef;\n\n" ++
  String.join (enums.map enumSection) ++
  String.join ((sort_deps structs).map structSection) ++
  String.join (interfaces.map interfaceSection)

/-- The attribute-to-mode table of `fn generate_schema` (the match on
`(has_capnp, has_serde)`; `(false, false)` means the declaration is
skipped). -/
def ser_type_of (has_capnp has_serde : Bool) : Option SerializationType :=
  match has_capnp, has_serde with
  | true, true => some .both
  | true, false => some .capnp
  | false, true => some .serde
  | false, false => none

/-! ### Specification-side dependency extraction

The spec says dependency edges arise from a field type "after unwrapping any
number of nested `List`/`Optional` wrappers".  The following definitions
follow the spec's words (they differ from `get_struct_name`, which unwraps
only `List`); they are used to compare the spec's dependency notion with the
code's. -/

/-- Follows the spec's words: unwrap any number of nested `List` and
`Optional` wrappers. -/
def spec_unwrap : CapnpType → CapnpType
  | .list inner => spec_unwrap inner
  | .optional inner => spec_unwrap inner
  | t => t

/-- Follows the spec's words: the record referenced by a field type after
unwrapping nested `List`/`Optional` wrappers. -/
def spec_dep_name (t : CapnpType) : Option String :=
  match spec_unwrap t with
  | .structRef n => some n
  | _ => none

/-- Dependency edges of one struct under the spec's unwrapping notion,
restricted (as the spec says) to declared records. -/
def spec_depsOf (items : List CapnpStruct) (s : CapnpStruct) : List CapnpStruct :=
  s.fields.filterMap (fun f => (spec_dep_name f.2.2).bind (lookup items))

/-! ### Predicates for the verification -/

/-- The names of a list of structs, in order. -/
def Names (order : List CapnpStruct) : List String :=
  order.map (fun t => t.name)

/-- The dependency edge relation the code's `visit` actually follows. -/
def edgeRel (items : List CapnpStruct) (a b : CapnpStruct) : Prop :=
  b ∈ depsOf items a

/-- Acyclicity of the code's dependency graph. -/
def Acyclic (items : List CapnpStruct) : Prop :=
  ∀ s, ¬ Relation.TransGen (edgeRel items) s s

/-- Acyclicity of the spec's dependency graph (edges unwrap `Optional` as
well as `List`). -/
def SpecAcyclic (items : List CapnpStruct) : Prop :=
  ∀ s, ¬ Relation.TransGen (fun a b => b ∈ spec_depsOf items a) s s

/-- `a` occurs at a strictly earlier position than `b` in `l`. -/
def appearsBefore (l : List CapnpStruct) (a b : CapnpStruct) : Prop :=
  ∃ i j : Fin l.length, i.val < j.val ∧ l.get i = a ∧ l.get j = b

instance (l : List CapnpStruct) (a b : CapnpStruct) :
    Decidable (appearsBefore l a b) :=
  decidable_of_iff
    (∃ i j : Fin l.length, i.val < j.val ∧ l.get i = a ∧ l.get j = b) Iff.rfl

/-- Every pushed struct has all of its dependencies at strictly earlier
positions. -/
def ClosedOrder (items order : List CapnpStruct) : Prop :=
  ∀ i : Fin order.length, ∀ d, d ∈ depsOf items (order.get i) →
    ∃ j : Fin order.length, j.val < i.val ∧ order.get j = d

/-- The number of declared names not yet seen; the quantity that bounds the
remaining recursion depth of `visit`. -/
def fuelMeasure (items : List CapnpStruct) (seen : List String) : Nat :=
  ((Names items).toFinset \ seen.toFinset).card

/-- What one `visit`/`visitFields` call does to the `(seen, order)` state:
`seen` grows, `order` grows by appending, every newly pushed name was unseen
before the call and is seen after it, and every newly seen name is pushed by
the end of the call. -/
structure SPost (seen : List String) (order : List CapnpStruct)
    (seen2 : List String) (order2 : List CapnpStruct) : Prop where
  seen_mono : ∀ x, x ∈ seen → x ∈ seen2
  order_ext : ∃ extra, order2 = order ++ extra
  pushed_new : ∀ x, x ∈ Names order2 → x ∈ Names order ∨ (x ∉ seen ∧ x ∈ seen2)
  seen_src : ∀ x, x ∈ seen2 → x ∈ seen ∨ x ∈ Names order2

/-- Basic state invariant of the traversal: every pushed name is seen and no
name is pushed twice. -/
structure BInv (seen : List String) (order : List CapnpStruct) : Prop where
  names_sub : ∀ x, x ∈ Names order → x ∈ seen
  nodup : (Names order).Nodup

/-- Topological state invariant: every pushed struct is the first declared
struct with its name, and the pushed order is dependency-closed. -/
structure TInv (items : List CapnpStruct) (order : List CapnpStruct) : Prop where
  canon : ∀ t, t ∈ order → lookup items t.name = some t
  closed : ClosedOrder items order

/-- Every seen name has already been pushed (no traversal in progress);
holds between top-level `visitList` steps. -/
def GrayFree (seen : List String) (order : List CapnpStruct) : Prop :=
  ∀ x, x ∈ seen → x ∈ Names order

/-- Every seen-but-not-pushed name belongs to a declared struct with a
strict dependency path to the struct currently being visited. -/
def GrayReach (items : List CapnpStruct) (seen : List String)
    (order : List CapnpStruct) (s : CapnpStruct) : Prop :=
  ∀ g, g ∈ seen → g ∉ Names order →
    ∃ a, lookup items g = some a ∧ Relation.TransGen (edgeRel items) a s

/-- Weak form of `GrayReach` used while the fields of `s` are processed:
each seen-but-not-pushed name reaches `s` or is `s` itself. -/
def GrayReachW (items : List CapnpStruct) (seen : List String)
    (order : List CapnpStruct) (s : CapnpStruct) : Prop :=
  ∀ g, g ∈ seen → g ∉ Names order →
    ∃ a, lookup items g = some a ∧
      (a = s ∨ Relation.TransGen (edgeRel items) a s)

/-! ### Concrete inputs used by the counterexamples and witnesses -/

/-- Record `R` with a field of type `Option<D>` (mapped:
`Optional(Struct D)`). -/
def sR : CapnpStruct := ⟨"R", [("f", 0, .optional (.structRef "D"))], false⟩

/-- Record `D` with one text field. -/
def sD : CapnpStruct := ⟨"D", [("x", 0, .primitive "Text")], false⟩

/-- The spec's own example `A{x:Text}`. -/
def tA : CapnpStruct := ⟨"A", [("x", 0, .primitive "Text")], false⟩

/-- The spec's own example `B{a:A, n:UInt32}`. -/
def tB : CapnpStruct :=
  ⟨"B", [("a", 0, .structRef "A"), ("n", 1, .primitive "UInt32")], false⟩

/-- Cyclic example `A{b:B}`. -/
def cA : CapnpStruct := ⟨"A", [("b", 0, .structRef "B")], false⟩

/-- Cyclic example `B{a:A}`. -/
def cB : CapnpStruct := ⟨"B", [("a", 0, .structRef "A")], false⟩

/-- The mapped sum type `{Idle, Error(u32)}` as `mk_enum` builds it. -/
def statusEnum : CapnpEnum :=
  ⟨"Status", [("Idle", none), ("Error", some (.primitive "UInt32"))], false⟩

/-- What `mk_enum` produces for `enum E { V { a: u32, b: u32 } }`: the
named-field variant is silently treated as payload-less. -/
def namedEnum : CapnpEnum := ⟨"E", [("V", none)], false⟩

/-- A two-method interface, as `mk_interface` would collect it. -/
def calcIfc : CapnpInterface :=
  ⟨"Calc", [("add", [("x", .primitive "UInt32")], some (.primitive "UInt32")),
            ("reset", [], none)]⟩

/-- A struct with an `Option<u32>` field at ordinal 2. -/
def optStruct : CapnpStruct :=
  ⟨"P", [("meta", 2, .optional (.primitive "UInt32"))], false⟩

/-- Witness input for the exactly-once property: a dangling reference, a
duplicated name, and a self-cycle at once. -/
def w1 : CapnpStruct := ⟨"A", [("g", 0, .structRef "Ghost")], false⟩

/-- Second struct with the duplicated name `A`. -/
def w2 : CapnpStruct := ⟨"A", [], false⟩

/-- A self-referencing struct. -/
def w3 : CapnpStruct := ⟨"C", [("c", 0, .structRef "C")], false⟩

/-! ## Unfolding equations for the traversal -/

theorem visit_zero (items : List CapnpStruct) (s : CapnpStruct)
    (seen : List String) (order : List CapnpStruct) :
    visit 0 items s seen order = (seen, order) := rfl

theorem visit_succ (fuel : Nat) (items : List CapnpStruct) (s : CapnpStruct)
    (seen : List String) (order : List CapnpStruct) :
    visit (fuel + 1) items s seen order =
      if s.name ∈ seen then (seen, order)
      else
        ((visitFields fuel items s.fields (s.name :: seen) order).1,
         (visitFields fuel items s.fields (s.name :: seen) order).2 ++ [s]) := rfl

theorem visitFields_nil (fuel : Nat) (items : List CapnpStruct)
    (seen : List String) (order : List CapnpStruct) :
    visitFields fuel items [] seen order = (seen, order) := rfl

theorem visitFields_cons (fuel : Nat) (items : List CapnpStruct)
    (f : String × Nat × CapnpType) (rest : List (String × Nat × CapnpType))
    (seen : List String) (order : List CapnpStruct) :
    visitFields fuel items (f :: rest) seen order =
      (let p :=
        match get_struct_name f.2.2 with
        | some name =>
            match lookup items name with
            | some dep => visit fuel items dep seen order
            | none => (seen, order)
        | none => (seen, order)
      visitFields fuel items rest p.1 p.2) := rfl

theorem visit_noop (fuel : Nat) (items : List CapnpStruct) (s : CapnpStruct)
    (seen : List String) (order : List CapnpStruct) (h : s.name ∈ seen) :
    visit fuel items s seen order = (seen, order) := by
  cases fuel with
  | zero => exact visit_zero items s seen order
  | succ n => rw [visit_succ]; simp [h]

/-! ## Facts about names and lookups -/

theorem names_append (a b : List CapnpStruct) :
    Names (a ++ b) = Names a ++ Names b := by
  simp [Names]

theorem mem_names_of_mem {t : CapnpStruct} {order : List CapnpStruct}
    (h : t ∈ order) : t.name ∈ Names order :=
  List.mem_map_of_mem _ h

theorem lookup_mem {items : List CapnpStruct} {n : String} {t : CapnpStruct}
    (h : lookup items n = some t) : t ∈ items :=
  List.mem_of_find?_eq_some h

theorem lookup_name {items : List CapnpStruct} {n : String} {t : CapnpStruct}
    (h : lookup items n = some t) : t.name = n := by
  have := List.find?_some h
  simpa using this

theorem lookup_self {items : List CapnpStruct} {n : String} {t : CapnpStruct}
    (h : lookup items n = some t) : lookup items t.name = some t := by
  rw [lookup_name h]; exact h

/-! ## The state-transition specification `SPost` -/

theorem SPost.rfl (seen : List String) (order : List CapnpStruct) :
    SPost seen order seen order := by
  refine ⟨fun x hx => hx, ⟨[], by simp⟩, fun x hx => Or.inl hx, fun x hx => Or.inl hx⟩

theorem SPost.comp {s1 s2 s3 : List String} {o1 o2 o3 : List CapnpStruct}
    (h1 : SPost s1 o1 s2 o2) (h2 : SPost s2 o2 s3 o3) : SPost s1 o1 s3 o3 := by
  refine ⟨fun x hx => h2.seen_mono x (h1.seen_mono x hx), ?_, ?_, ?_⟩
  · obtain ⟨e1, he1⟩ := h1.order_ext
    obtain ⟨e2, he2⟩ := h2.order_ext
    exact ⟨e1 ++ e2, by rw [he2, he1, List.append_assoc]⟩
  · intro x hx
    rcases h2.pushed_new x hx with h | ⟨hns, hs⟩
    · rcases h1.pushed_new x h with h | ⟨hns, hs⟩
      · exact Or.inl h
      · exact Or.inr ⟨hns, h2.seen_mono x hs⟩
    · exact Or.inr ⟨fun hx1 => hns (h1.seen_mono x hx1), hs⟩
  · intro x hx
    rcases h2.seen_src x hx with h | h
    · rcases h1.seen_src x h with h | h
      · exact Or.inl h
      · obtain ⟨e2, he2⟩ := h2.order_ext
        exact Or.inr (by rw [he2, names_append]; exact List.mem_append_left _ h)
    · exact Or.inr h

theorem names_sub_of_ext {o1 o2 : List CapnpStruct}
    (h : ∃ extra, o2 = o1 ++ extra) {x : String} (hx : x ∈ Names o1) :
    x ∈ Names o2 := by
  obtain ⟨e, he⟩ := h
  rw [he, names_append]
  exact List.mem_append_left _ hx

theorem visitFields_spost_of (fuel : Nat)
    (H : ∀ items s seen order,
      SPost seen order (visit fuel items s seen order).1
        (visit fuel items s seen order).2) :
    ∀ (items : List CapnpStruct) (fs : List (String × Nat × CapnpType))
      (seen : List String) (order : List CapnpStruct),
      SPost seen order (visitFields fuel items fs seen order).1
        (visitFields fuel items fs seen order).2 := by
  intro items fs
  induction fs with
  | nil =>
      intro seen order
      rw [visitFields_nil]
      exact SPost.rfl seen order
  | cons f rest ih =>
      intro seen order
      rw [visitFields_cons]
      cases hg : get_struct_name f.2.2 with
      | none =>
          simp only [hg]
          exact ih seen order
      | some name =>
          cases hl : lookup items name with
          | none =>
              simp only [hg, hl]
              exact ih seen order
          | some dep =>
              simp only [hg, hl]
              exact (H items dep seen order).comp (ih _ _)

theorem visit_spost (fuel : Nat) :
    ∀ (items : List CapnpStruct) (s : CapnpStruct) (seen : List String)
      (order : List CapnpStruct),
      SPost seen order (visit fuel items s seen order).1
        (visit fuel items s seen order).2 := by
  induction fuel with
  | zero =>
      intro items s seen order
      rw [visit_zero]
      exact SPost.rfl seen order
  | succ n ih =>
      intro items s seen order
      rw [visit_succ]
      by_cases h : s.name ∈ seen
      · simp only [if_pos h]
        exact SPost.rfl seen order
      · simp only [if_neg h]
        have hf := visitFields_spost_of n ih items s.fields (s.name :: seen) order
        constructor
        · intro x hx
          exact hf.seen_mono x (List.mem_cons_of_mem _ hx)
        · obtain ⟨e, he⟩ := hf.order_ext
          exact ⟨e ++ [s], by rw [he, List.append_assoc]⟩
        · intro x hx
          rw [names_append] at hx
          rcases List.mem_append.mp hx with hx | hx
          · rcases hf.pushed_new x hx with h1 | ⟨h1, h2⟩
            · exact Or.inl h1
            · exact Or.inr ⟨fun hc => h1 (List.mem_cons_of_mem _ hc), h2⟩
          · have hx2 : x = s.name := by simpa [Names] using hx
            subst hx2
            exact Or.inr ⟨h, hf.seen_mono _ (List.mem_cons_self _ _)⟩
        · intro x hx
          rcases hf.seen_src x hx with h1 | h1
          · rcases List.mem_cons.mp h1 with h2 | h2
            · subst h2
              refine Or.inr ?_
              rw [names_append]
              exact List.mem_append_right _ (by simp [Names])
            · exact Or.inl h2
          · refine Or.inr ?_
            rw [names_append]
            exact List.mem_append_left _ h1

theorem visitFields_spost (fuel : Nat) (items : List CapnpStruct)
    (fs : List (String × Nat × CapnpType)) (seen : List String)
    (order : List CapnpStruct) :
    SPost seen order (visitFields fuel items fs seen order).1
      (visitFields fuel items fs seen order).2 :=
  visitFields_spost_of fuel (visit_spost fuel) items fs seen order

theorem visit_insert (fuel : Nat) (items : List CapnpStruct) (s : CapnpStruct)
    (seen : List String) (order : List CapnpStruct) :
    s.name ∈ (visit (fuel + 1) items s seen order).1 := by
  rw [visit_succ]
  by_cases h : s.name ∈ seen
  · simp only [if_pos h]
    exact h
  · simp only [if_neg h]
    exact (visitFields_spost fuel items s.fields (s.name :: seen) order).seen_mono _
      (List.mem_cons_self _ _)

/-! ## Preservation of the basic invariant `BInv` -/

theorem visitFields_binv_of (fuel : Nat)
    (H : ∀ items s seen order, BInv seen order →
      BInv (visit fuel items s seen order).1 (visit fuel items s seen order).2) :
    ∀ (items : List CapnpStruct) (fs : List (String × Nat × CapnpType))
      (seen : List String) (order : List CapnpStruct),
      BInv seen order →
        BInv (visitFields fuel items fs seen order).1
          (visitFields fuel items fs seen order).2 := by
  intro items fs
  induction fs with
  | nil =>
      intro seen order hb
      rw [visitFields_nil]
      exact hb
  | cons f rest ih =>
      intro seen order hb
      rw [visitFields_cons]
      cases hg : get_struct_name f.2.2 with
      | none =>
          simp only [hg]
          exact ih seen order hb
      | some name =>
          cases hl : lookup items name with
          | none =>
              simp only [hg, hl]
              exact ih seen order hb
          | some dep =>
              simp only [hg, hl]
              exact ih _ _ (H items dep seen order hb)

theorem visit_binv (fuel : Nat) :
    ∀ (items : List CapnpStruct) (s : CapnpStruct) (seen : List String)
      (order : List CapnpStruct),
      BInv seen order →
        BInv (visit fuel items s seen order).1 (visit fuel items s seen order).2 := by
  induction fuel with
  | zero =>
      intro items s seen order hb
      rw [visit_zero]
      exact hb
  | succ n ih =>
      intro items s seen order hb
      rw [visit_succ]
      by_cases h : s.name ∈ seen
      · simp only [if_pos h]
        exact hb
      · simp only [if_neg h]
        have hb1 : BInv (s.name :: seen) order :=
          ⟨fun x hx => List.mem_cons_of_mem _ (hb.names_sub x hx), hb.nodup⟩
        have hfb := visitFields_binv_of n ih items s.fields (s.name :: seen) order hb1
        have hfs := visitFields_spost n items s.fields (s.name :: seen) order
        have hnotp : s.name ∉ Names (visitFields n items s.fields (s.name :: seen) order).2 := by
          intro hc
          rcases hfs.pushed_new s.name hc with h1 | ⟨h1, _⟩
          · exact h (hb.names_sub _ h1)
          · exact h1 (List.mem_cons_self _ _)
        constructor
        · intro x hx
          rw [names_append] at hx
          rcases List.mem_append.mp hx with hx | hx
          · exact hfb.names_sub x hx
          · have hx2 : x = s.name := by simpa [Names] using hx
            subst hx2
            exact hfs.seen_mono _ (List.mem_cons_self _ _)
        · rw [names_append]
          refine List.Nodup.append hfb.nodup (by simp [Names]) ?_
          intro x hx hx2
          have hx3 : x = s.name := by simpa [Names] using hx2
          subst hx3
          exact hnotp hx

theorem visitFields_binv (fuel : Nat) (items : List CapnpStruct)
    (fs : List (String × Nat × CapnpType)) (seen : List String)
    (order : List CapnpStruct) (hb : BInv seen order) :
    BInv (visitFields fuel items fs seen order).1
      (visitFields fuel items fs seen order).2 :=
  visitFields_binv_of fuel (visit_binv fuel) items fs seen order hb

/-! ## The output only contains input structs -/

theorem visitFields_subset_of (fuel : Nat)
    (H : ∀ items s seen order t, t ∈ (visit fuel items s seen order).2 →
      t ∈ order ∨ t ∈ items ∨ t = s) :
    ∀ (items : List CapnpStruct) (fs : List (String × Nat × CapnpType))
      (seen : List String) (order : List CapnpStruct) (t : CapnpStruct),
      t ∈ (visitFields fuel items fs seen order).2 → t ∈ order ∨ t ∈ items := by
  intro items fs
  induction fs with
  | nil =>
      intro seen order t ht
      rw [visitFields_nil] at ht
      exact Or.inl ht
  | cons f rest ih =>
      intro seen order t ht
      rw [visitFields_cons] at ht
      cases hg : get_struct_name f.2.2 with
      | none =>
          simp only [hg] at ht
          exact ih seen order t ht
      | some name =>
          cases hl : lookup items name with
          | none =>
              simp only [hg, hl] at ht
              exact ih seen order t ht
          | some dep =>
              simp only [hg, hl] at ht
              rcases ih _ _ t ht with h1 | h1
              · rcases H items dep seen order t h1 with h2 | h2 | h2
                · exact Or.inl h2
                · exact Or.inr h2
                · subst h2
                  exact Or.inr (lookup_mem hl)
              · exact Or.inr h1

theorem visit_subset (fuel : Nat) :
    ∀ (items : List CapnpStruct) (s : CapnpStruct) (seen : List String)
      (order : List CapnpStruct) (t : CapnpStruct),
      t ∈ (visit fuel items s seen order).2 → t ∈ order ∨ t ∈ items ∨ t = s := by
  induction fuel with
  | zero =>
      intro items s seen order t ht
      rw [visit_zero] at ht
      exact Or.inl ht
  | succ n ih =>
      intro items s seen order t ht
      rw [visit_succ] at ht
      by_cases h : s.name ∈ seen
      · simp only [if_pos h] at ht
        exact Or.inl ht
      · simp only [if_neg h] at ht
        rcases List.mem_append.mp ht with h1 | h1
        · rcases visitFields_subset_of n ih items s.fields _ _ t h1 with h2 | h2
          · exact Or.inl h2
          · exact Or.inr (Or.inl h2)
        · have : t = s := by simpa using h1
          exact Or.inr (Or.inr this)

/-! ## The top-level loop `visitList` -/

theorem visitList_spost (fuel : Nat) (items : List CapnpStruct) :
    ∀ (rest : List CapnpStruct) (seen : List String) (order : List CapnpStruct),
      SPost seen order (visitList fuel items rest seen order).1
        (visitList fuel items rest seen order).2 := by
  intro rest
  induction rest with
  | nil =>
      intro seen order
      rw [visitList]
      exact SPost.rfl seen order
  | cons s rest ih =>
      intro seen order
      rw [visitList]
      exact (visit_spost fuel items s seen order).comp (ih _ _)

theorem visitList_binv (fuel : Nat) (items : List CapnpStruct) :
    ∀ (rest : List CapnpStruct) (seen : List String) (order : List CapnpStruct),
      BInv seen order →
        BInv (visitList fuel items rest seen order).1
          (visitList fuel items rest seen order).2 := by
  intro rest
  induction rest with
  | nil =>
      intro seen order hb
      rw [visitList]
      exact hb
  | cons s rest ih =>
      intro seen order hb
      rw [visitList]
      exact ih _ _ (visit_binv fuel items s seen order hb)

theorem visitList_subset (fuel : Nat) (items : List CapnpStruct) :
    ∀ (rest : List CapnpStruct) (seen : List String) (order : List CapnpStruct)
      (t : CapnpStruct),
      t ∈ (visitList fuel items rest seen order).2 →
        t ∈ order ∨ t ∈ items ∨ t ∈ rest := by
  intro rest
  induction rest with
  | nil =>
      intro seen order t ht
      rw [visitList] at ht
      exact Or.inl ht
  | cons s rest ih =>
      intro seen order t ht
      rw [visitList] at ht
      rcases ih _ _ t ht with h1 | h1 | h1
      · rcases visit_subset fuel items s seen order t h1 with h2 | h2 | h2
        · exact Or.inl h2
        · exact Or.inr (Or.inl h2)
        · subst h2
          exact Or.inr (Or.inr (List.mem_cons_self _ _))
      · exact Or.inr (Or.inl h1)
      · exact Or.inr (Or.inr (List.mem_cons_of_mem _ h1))

theorem visitList_processed (fuel : Nat) (items : List CapnpStruct) :
    ∀ (rest : List CapnpStruct) (seen : List String) (order : List CapnpStruct)
      (s : CapnpStruct), s ∈ rest →
      s.name ∈ (visitList (fuel + 1) items rest seen order).1 := by
  intro rest
  induction rest with
  | nil =>
      intro seen order s hs
      exact absurd hs (List.not_mem_nil s)
  | cons t rest ih =>
      intro seen order s hs
      rw [visitList]
      rcases List.mem_cons.mp hs with h | h
      · subst h
        exact (visitList_spost (fuel + 1) items rest _ _).seen_mono _
          (visit_insert fuel items s seen order)
      · exact ih _ _ s h

/-! ## Claim C10: each distinct name appears exactly once -/

/-- C10 — The output of the dependency sort contains each distinct input
struct name exactly once (no name is dropped or duplicated, even with
cycles, dangling references or duplicated names), and every output struct is
an input struct. -/
theorem sort_deps_exactly_once (items : List CapnpStruct) :
    (Names (sort_deps items)).Nodup ∧
    (∀ s, s ∈ items → (Names (sort_deps items)).count s.name = 1) ∧
    (∀ t, t ∈ sort_deps items → t ∈ items) := by
  have hsp := visitList_spost (items.length + 1) items items [] []
  have hb := visitList_binv (items.length + 1) items items [] []
    ⟨fun x hx => by simp [Names] at hx, List.nodup_nil⟩
  refine ⟨hb.nodup, ?_, ?_⟩
  · intro s hs
    have hseen := visitList_processed items.length items items [] [] s hs
    have hmem : s.name ∈ Names (sort_deps items) := by
      rcases hsp.seen_src s.name hseen with h | h
      · exact absurd h (List.not_mem_nil _)
      · exact h
    have h1 : (Names (sort_deps items)).count s.name ≤ 1 :=
      List.nodup_iff_count_le_one.mp hb.nodup _
    have h2 : 0 < (Names (sort_deps items)).count s.name :=
      List.count_pos_iff.mpr hmem
    omega
  · intro t ht
    rcases visitList_subset (items.length + 1) items items [] [] t ht with h | h | h
    · exact absurd h (List.not_mem_nil _)
    · exact h
    · exact h

/-- Witness for C10 at a concrete input combining a dangling reference, a
duplicated name and a self-cycle. -/
theorem sort_deps_exactly_once_witness :
    (Names (sort_deps [w1, w2, w3])).count w1.name = 1 :=
  (sort_deps_exactly_once [w1, w2, w3]).2.1 w1 (by decide)

/-! ## The fuel measure -/

theorem fuelMeasure_mono {items : List CapnpStruct} {seen seen2 : List String}
    (h : ∀ x, x ∈ seen → x ∈ seen2) :
    fuelMeasure items seen2 ≤ fuelMeasure items seen := by
  apply Finset.card_le_card
  refine Finset.sdiff_subset_sdiff (Finset.Subset.refl _) ?_
  intro x hx
  rw [List.mem_toFinset] at hx ⊢
  exact h x hx

theorem fuelMeasure_insert_lt {items : List CapnpStruct} {seen : List String}
    {s : CapnpStruct} (hmem : s ∈ items) (hns : s.name ∉ seen) :
    fuelMeasure items (s.name :: seen) < fuelMeasure items seen := by
  apply Finset.card_lt_card
  have hsub : (Names items).toFinset \ (s.name :: seen).toFinset ⊆
      (Names items).toFinset \ seen.toFinset := by
    refine Finset.sdiff_subset_sdiff (Finset.Subset.refl _) ?_
    intro x hx
    rw [List.mem_toFinset] at hx ⊢
    exact List.mem_cons_of_mem _ hx
  rw [Finset.ssubset_iff_of_subset hsub]
  refine ⟨s.name, ?_, ?_⟩
  · rw [Finset.mem_sdiff, List.mem_toFinset, List.mem_toFinset]
    exact ⟨mem_names_of_mem hmem, hns⟩
  · rw [Finset.mem_sdiff, List.mem_toFinset, List.mem_toFinset]
    intro hc
    exact hc.2 (List.mem_cons_self _ _)

theorem fuelMeasure_init (items : List CapnpStruct) :
    fuelMeasure items [] ≤ items.length := by
  unfold fuelMeasure
  simp only [List.toFinset_nil, Finset.sdiff_empty]
  calc (Names items).toFinset.card ≤ (Names items).length := List.toFinset_card_le _
    _ = items.length := by simp [Names]

/-! ## Dependency lists -/

theorem fieldDeps_self (items : List CapnpStruct) (s : CapnpStruct) :
    fieldDeps items s.fields = depsOf items s := rfl

theorem fieldDeps_cons_none {items : List CapnpStruct}
    {f : String × Nat × CapnpType} {rest : List (String × Nat × CapnpType)}
    (h : get_struct_name f.2.2 = none) :
    fieldDeps items (f :: rest) = fieldDeps items rest := by
  simp [fieldDeps, List.filterMap_cons, h]

theorem fieldDeps_cons_nolook {items : List CapnpStruct}
    {f : String × Nat × CapnpType} {rest : List (String × Nat × CapnpType)}
    {name : String} (h : get_struct_name f.2.2 = some name)
    (h2 : lookup items name = none) :
    fieldDeps items (f :: rest) = fieldDeps items rest := by
  simp [fieldDeps, List.filterMap_cons, h, h2]

theorem fieldDeps_cons_dep {items : List CapnpStruct}
    {f : String × Nat × CapnpType} {rest : List (String × Nat × CapnpType)}
    {name : String} {dep : CapnpStruct} (h : get_struct_name f.2.2 = some name)
    (h2 : lookup items name = some dep) :
    fieldDeps items (f :: rest) = dep :: fieldDeps items rest := by
  simp [fieldDeps, List.filterMap_cons, h, h2]

theorem mem_of_depsOf {items : List CapnpStruct} {s b : CapnpStruct}
    (h : b ∈ depsOf items s) : b ∈ items := by
  rcases List.mem_filterMap.mp h with ⟨f, _, hb⟩
  cases hg : get_struct_name f.2.2 with
  | none => rw [hg] at hb; exact Option.noConfusion hb
  | some n =>
      rw [hg] at hb
      exact lookup_mem (show lookup items n = some b from hb)

theorem mem_of_spec_depsOf {items : List CapnpStruct} {s b : CapnpStruct}
    (h : b ∈ spec_depsOf items s) : b ∈ items := by
  rcases List.mem_filterMap.mp h with ⟨f, _, hb⟩
  cases hg : spec_dep_name f.2.2 with
  | none => rw [hg] at hb; exact Option.noConfusion hb
  | some n =>
      rw [hg] at hb
      exact lookup_mem (show lookup items n = some b from hb)

/-! ## Dependency-closed orders -/

theorem closedOrder_nil (items : List CapnpStruct) : ClosedOrder items [] := by
  intro i
  exact absurd i.isLt (by simp)

theorem closedOrder_push {items order : List CapnpStruct} {s : CapnpStruct}
    (h : ClosedOrder items order)
    (hdeps : ∀ d, d ∈ depsOf items s → d ∈ order) :
    ClosedOrder items (order ++ [s]) := by
  intro i d hd
  by_cases hi : i.val < order.length
  · have hget : (order ++ [s]).get i = order.get ⟨i.val, hi⟩ := by
      simp only [List.get_eq_getElem]
      rw [List.getElem_append_left hi]
    rw [hget] at hd
    obtain ⟨j, hj, hj2⟩ := h ⟨i.val, hi⟩ d hd
    have hjlen : j.val < (order ++ [s]).length := by
      have hjl := j.isLt
      simp only [List.length_append, List.length_cons, List.length_nil]
      omega
    refine ⟨⟨j.val, hjlen⟩, ?_, ?_⟩
    · show j.val < i.val
      exact hj
    · show (order ++ [s]).get ⟨j.val, hjlen⟩ = d
      simp only [List.get_eq_getElem]
      rw [List.getElem_append_left j.isLt]
      simpa [List.get_eq_getElem] using hj2
  · have hi2 : i.val = order.length := by
      have := i.isLt
      simp at this
      omega
    have hget : (order ++ [s]).get i = s := by
      simp only [List.get_eq_getElem]
      rw [List.getElem_append_right (by omega)]
      simp [hi2]
    rw [hget] at hd
    have hdo : d ∈ order := hdeps d hd
    obtain ⟨j, hj⟩ := List.mem_iff_get.mp hdo
    have hjlen : j.val < (order ++ [s]).length := by
      have hjl := j.isLt
      simp only [List.length_append, List.length_cons, List.length_nil]
      omega
    refine ⟨⟨j.val, hjlen⟩, ?_, ?_⟩
    · show j.val < i.val
      have hjl := j.isLt
      omega
    · show (order ++ [s]).get ⟨j.val, hjlen⟩ = d
      simp only [List.get_eq_getElem]
      rw [List.getElem_append_left j.isLt]
      simpa [List.get_eq_getElem] using hj

/-! ## The topological-order argument -/

theorem grayReachW_step {items : List CapnpStruct} {seen seen2 : List String}
    {order order2 : List CapnpStruct} {s : CapnpStruct}
    (hsp : SPost seen order seen2 order2) (hw : GrayReachW items seen order s) :
    GrayReachW items seen2 order2 s := by
  intro g hg hgn
  have hg_seen : g ∈ seen := by
    rcases hsp.seen_src g hg with h | h
    · exact h
    · exact absurd h hgn
  have hgn_old : g ∉ Names order := fun hc => hgn (names_sub_of_ext hsp.order_ext hc)
  exact hw g hg_seen hgn_old

theorem visitFields_topo_of (fuel : Nat)
    (H : ∀ items s seen order, Acyclic items → fuelMeasure items seen < fuel →
      lookup items s.name = some s → BInv seen order → TInv items order →
      GrayReach items seen order s →
      TInv items (visit fuel items s seen order).2 ∧
        s ∈ (visit fuel items s seen order).2) :
    ∀ (items : List CapnpStruct) (s : CapnpStruct)
      (fs : List (String × Nat × CapnpType)) (seen : List String)
      (order : List CapnpStruct),
      Acyclic items →
      fuelMeasure items seen < fuel →
      (∀ d, d ∈ fieldDeps items fs → d ∈ depsOf items s) →
      BInv seen order →
      TInv items order →
      GrayReachW items seen order s →
      TInv items (visitFields fuel items fs seen order).2 ∧
        GrayReachW items (visitFields fuel items fs seen order).1
          (visitFields fuel items fs seen order).2 s ∧
        ∀ d, d ∈ fieldDeps items fs →
          d ∈ (visitFields fuel items fs seen order).2 := by
  intro items s fs
  induction fs with
  | nil =>
      intro seen order _ _ _ _ ht hw
      rw [visitFields_nil]
      exact ⟨ht, hw, fun d hd => absurd hd (List.not_mem_nil d)⟩
  | cons f rest ihf =>
      intro seen order hacyc hm hdeps hb ht hw
      rw [visitFields_cons]
      cases hg : get_struct_name f.2.2 with
      | none =>
          simp only [hg]
          have hdeps2 : ∀ d, d ∈ fieldDeps items rest → d ∈ depsOf items s := by
            intro d hd
            exact hdeps d (by rw [fieldDeps_cons_none hg]; exact hd)
          have hres := ihf seen order hacyc hm hdeps2 hb ht hw
          refine ⟨hres.1, hres.2.1, ?_⟩
          intro d hd
          rw [fieldDeps_cons_none hg] at hd
          exact hres.2.2 d hd
      | some name =>
          cases hl : lookup items name with
          | none =>
              simp only [hg, hl]
              have hdeps2 : ∀ d, d ∈ fieldDeps items rest → d ∈ depsOf items s := by
                intro d hd
                exact hdeps d (by rw [fieldDeps_cons_nolook hg hl]; exact hd)
              have hres := ihf seen order hacyc hm hdeps2 hb ht hw
              refine ⟨hres.1, hres.2.1, ?_⟩
              intro d hd
              rw [fieldDeps_cons_nolook hg hl] at hd
              exact hres.2.2 d hd
          | some dep =>
              simp only [hg, hl]
              have hdepcanon : lookup items dep.name = some dep := lookup_self hl
              have hedge : edgeRel items s dep :=
                hdeps dep (by rw [fieldDeps_cons_dep hg hl]; exact List.mem_cons_self _ _)
              have hgr : GrayReach items seen order dep := by
                intro g hg2 hgn
                rcases hw g hg2 hgn with ⟨a, ha1, ha2⟩
                refine ⟨a, ha1, ?_⟩
                rcases ha2 with h2 | h2
                · subst h2
                  exact Relation.TransGen.single hedge
                · exact Relation.TransGen.tail h2 hedge
              obtain ⟨htv, hsv⟩ := H items dep seen order hacyc hm hdepcanon hb ht hgr
              have hspv := visit_spost fuel items dep seen order
              have hbv := visit_binv fuel items dep seen order hb
              have hwv := grayReachW_step (s := s) hspv hw
              have hm2 : fuelMeasure items (visit fuel items dep seen order).1 < fuel :=
                lt_of_le_of_lt (fuelMeasure_mono hspv.seen_mono) hm
              have hdeps2 : ∀ d, d ∈ fieldDeps items rest → d ∈ depsOf items s := by
                intro d hd
                exact hdeps d
                  (by rw [fieldDeps_cons_dep hg hl]; exact List.mem_cons_of_mem _ hd)
              have hres := ihf _ _ hacyc hm2 hdeps2 hbv htv hwv
              refine ⟨hres.1, hres.2.1, ?_⟩
              intro d hd
              rw [fieldDeps_cons_dep hg hl] at hd
              rcases List.mem_cons.mp hd with h2 | h2
              · have hspr := visitFields_spost fuel items rest
                  (visit fuel items dep seen order).1 (visit fuel items dep seen order).2
                obtain ⟨e, he⟩ := hspr.order_ext
                rw [h2, he]
                exact List.mem_append_left _ hsv
              · exact hres.2.2 d h2

theorem visit_topo (fuel : Nat) :
    ∀ (items : List CapnpStruct) (s : CapnpStruct) (seen : List String)
      (order : List CapnpStruct),
      Acyclic items →
      fuelMeasure items seen < fuel →
      lookup items s.name = some s →
      BInv seen order →
      TInv items order →
      GrayReach items seen order s →
      TInv items (visit fuel items s seen order).2 ∧
        s ∈ (visit fuel items s seen order).2 := by
  induction fuel with
  | zero =>
      intro items s seen order _ hm
      exact absurd hm (Nat.not_lt_zero _)
  | succ n ih =>
      intro items s seen order hacyc hm hcanon hb ht hgray
      rw [visit_succ]
      by_cases h : s.name ∈ seen
      · simp only [if_pos h]
        refine ⟨ht, ?_⟩
        by_cases hp : s.name ∈ Names order
        · rcases List.mem_map.mp hp with ⟨t, htmem, htn⟩
          have h1 := ht.canon t htmem
          rw [htn] at h1
          have h2 : t = s := Option.some.inj (h1.symm.trans hcanon)
          subst h2
          exact htmem
        · rcases hgray s.name h hp with ⟨a, ha1, ha2⟩
          have h2 : a = s := Option.some.inj (ha1.symm.trans hcanon)
          subst h2
          exact absurd ha2 (hacyc a)
      · simp only [if_neg h]
        have hsmem : s ∈ items := lookup_mem hcanon
        have hm1 : fuelMeasure items (s.name :: seen) < n := by
          have := fuelMeasure_insert_lt hsmem h
          omega
        have hb1 : BInv (s.name :: seen) order :=
          ⟨fun x hx => List.mem_cons_of_mem _ (hb.names_sub x hx), hb.nodup⟩
        have hw1 : GrayReachW items (s.name :: seen) order s := by
          intro g hg hgn
          rcases List.mem_cons.mp hg with h1 | h1
          · subst h1
            exact ⟨s, hcanon, Or.inl rfl⟩
          · rcases hgray g h1 hgn with ⟨a, ha1, ha2⟩
            exact ⟨a, ha1, Or.inr ha2⟩
        obtain ⟨htf, _, hdf⟩ := visitFields_topo_of n ih items s s.fields
          (s.name :: seen) order hacyc hm1 (fun d hd => hd) hb1 ht hw1
        constructor
        · constructor
          · intro t htm
            rcases List.mem_append.mp htm with h1 | h1
            · exact htf.canon t h1
            · have h2 : t = s := by simpa using h1
              subst h2
              exact hcanon
          · exact closedOrder_push htf.closed (fun d hd => hdf d hd)
        · exact List.mem_append_right _ (List.mem_singleton.mpr rfl)

theorem lookup_first {done rest : List CapnpStruct} {s : CapnpStruct}
    (hne : ∀ t, t ∈ done → t.name ≠ s.name) :
    lookup (done ++ s :: rest) s.name = some s := by
  induction done with
  | nil =>
      rw [List.nil_append]
      exact List.find?_cons_of_pos _ (by simp)
  | cons t done ih =>
      rw [List.cons_append]
      show List.find? _ (t :: (done ++ s :: rest)) = some s
      rw [List.find?_cons_of_neg]
      · exact ih (fun u hu => hne u (List.mem_cons_of_mem _ hu))
      · simp only [beq_iff_eq]
        exact hne t (List.mem_cons_self _ _)

theorem visitList_topo (fuel : Nat) (items : List CapnpStruct)
    (hacyc : Acyclic items) :
    ∀ (rest done : List CapnpStruct) (seen : List String)
      (order : List CapnpStruct),
      items = done ++ rest →
      (∀ t, t ∈ done → t.name ∈ seen) →
      fuelMeasure items seen < fuel + 1 →
      BInv seen order →
      TInv items order →
      GrayFree seen order →
      TInv items (visitList (fuel + 1) items rest seen order).2 := by
  intro rest
  induction rest with
  | nil =>
      intro done seen order _ _ _ _ ht _
      rw [visitList]
      exact ht
  | cons s rest ih =>
      intro done seen order hsplit hdone hm hb ht hfree
      rw [visitList]
      by_cases h : s.name ∈ seen
      · rw [visit_noop _ _ _ _ _ h]
        refine ih (done ++ [s]) seen order ?_ ?_ hm hb ht hfree
        · rw [hsplit]
          simp
        · intro t htm
          rcases List.mem_append.mp htm with h1 | h1
          · exact hdone t h1
          · have h2 : t = s := by simpa using h1
            subst h2
            exact h
      · have hcanon : lookup items s.name = some s := by
          rw [hsplit]
          exact lookup_first (fun t htm hc => h (hc ▸ hdone t htm))
        have hgray : GrayReach items seen order s :=
          fun g hg hgn => absurd (hfree g hg) hgn
        obtain ⟨htv, _⟩ :=
          visit_topo (fuel + 1) items s seen order hacyc hm hcanon hb ht hgray
        have hsp := visit_spost (fuel + 1) items s seen order
        have hbv := visit_binv (fuel + 1) items s seen order hb
        have hfree2 : GrayFree (visit (fuel + 1) items s seen order).1
            (visit (fuel + 1) items s seen order).2 := by
          intro x hx
          rcases hsp.seen_src x hx with h1 | h1
          · exact names_sub_of_ext hsp.order_ext (hfree x h1)
          · exact h1
        have hm2 : fuelMeasure items (visit (fuel + 1) items s seen order).1 <
            fuel + 1 :=
          lt_of_le_of_lt (fuelMeasure_mono hsp.seen_mono) hm
        have hdone2 : ∀ t, t ∈ done ++ [s] →
            t.name ∈ (visit (fuel + 1) items s seen order).1 := by
          intro t htm
          rcases List.mem_append.mp htm with h1 | h1
          · exact hsp.seen_mono _ (hdone t h1)
          · have h2 : t = s := by simpa using h1
            subst h2
            exact visit_insert fuel items t seen order
        refine ih (done ++ [s]) _ _ ?_ hdone2 hm2 hbv htv hfree2
        rw [hsplit]
        simp

/-- C1 amended — For every record set whose dependency graph, as the code
extracts it (`get_struct_name` unwraps nested `List` wrappers but not
`Optional`), is acyclic, `sort_deps` places every referenced declared record
strictly before its referencer. -/
theorem sort_deps_topo (items : List CapnpStruct) (hacyc : Acyclic items) :
    ∀ R, R ∈ sort_deps items → ∀ D, D ∈ depsOf items R →
      appearsBefore (sort_deps items) D R := by
  have hT : TInv items (sort_deps items) := by
    refine visitList_topo items.length items hacyc items [] [] [] (by simp)
      (fun t ht => absurd ht (List.not_mem_nil t)) ?_
      ⟨fun x hx => by simp [Names] at hx, List.nodup_nil⟩
      ⟨fun t ht => absurd ht (List.not_mem_nil t), closedOrder_nil items⟩
      (fun x hx => absurd hx (List.not_mem_nil x))
    have := fuelMeasure_init items
    omega
  intro R hR D hD
  obtain ⟨i, hi⟩ := List.mem_iff_get.mp hR
  obtain ⟨j, hj1, hj2⟩ := hT.closed i D (by rw [hi]; exact hD)
  exact ⟨j, i, hj1, hj2, hi⟩

/-! ## Acyclicity of small concrete graphs -/

theorem acyclic_of_sink_chain (F : CapnpStruct → List CapnpStruct)
    (P Q : CapnpStruct) (hPQ : P ≠ Q)
    (hran : ∀ a b, b ∈ F a → b = P ∨ b = Q)
    (hQ : ∀ b, b ∉ F Q)
    (hP : ∀ b, b ∈ F P → b = Q) :
    ∀ s, ¬ Relation.TransGen (fun a b => b ∈ F a) s s := by
  have noQ : ∀ z, ¬ Relation.TransGen (fun a b => b ∈ F a) Q z := by
    intro z h
    induction h with
    | single e => exact hQ _ e
    | tail _ _ ih => exact ih
  have fromP : ∀ z, Relation.TransGen (fun a b => b ∈ F a) P z → z = Q := by
    intro z h
    induction h with
    | single e => exact hP _ e
    | tail _ e ih => rw [ih] at e; exact absurd e (hQ _)
  intro s h
  have hs : s = P ∨ s = Q := by
    cases h with
    | single e => exact hran _ _ e
    | tail _ e => exact hran _ _ e
  rcases hs with h1 | h1
  · subst h1
    exact hPQ (fromP _ h)
  · subst h1
    exact noQ _ h

theorem specAcyclic_sRsD : SpecAcyclic [sR, sD] := by
  apply acyclic_of_sink_chain _ sR sD (by decide)
  · intro a b hb
    simpa using mem_of_spec_depsOf hb
  · intro b hb
    have h0 : spec_depsOf [sR, sD] sD = [] := rfl
    rw [h0] at hb
    exact List.not_mem_nil b hb
  · intro b hb
    have h0 : spec_depsOf [sR, sD] sR = [sD] := rfl
    rw [h0] at hb
    simpa using hb

theorem acyclic_tBtA : Acyclic [tB, tA] := by
  apply acyclic_of_sink_chain _ tB tA (by decide)
  · intro a b hb
    simpa using mem_of_depsOf hb
  · intro b hb
    have h0 : depsOf [tB, tA] tA = [] := rfl
    rw [h0] at hb
    exact List.not_mem_nil b hb
  · intro b hb
    have h0 : depsOf [tB, tA] tB = [tA] := rfl
    rw [h0] at hb
    simpa using hb

/-! ## Claim C1 -/

/-- C1 counterexample — A record whose only reference to a declared record
sits under an `Optional` wrapper: the reference graph in the spec's sense
(unwrapping `List` and `Optional`) is acyclic and has the edge `R → D`, yet
`sort_deps` returns `[R, D]`, with `D` after its referencer `R`. -/
theorem sort_deps_optional_not_unwrapped :
    SpecAcyclic [sR, sD] ∧ sD ∈ spec_depsOf [sR, sD] sR ∧
      sort_deps [sR, sD] = [sR, sD] ∧
      ¬ appearsBefore (sort_deps [sR, sD]) sD sR :=
  ⟨specAcyclic_sRsD, by decide, by decide, by decide⟩

/-- C1 witness — The spec's own example `A{x:Text}`, `B{a:A, n:UInt32}`:
the code's dependency graph is acyclic and the sorted order places `A`
before `B`. -/
theorem sort_deps_topo_witness :
    appearsBefore (sort_deps [tB, tA]) tA tB :=
  sort_deps_topo [tB, tA] acyclic_tBtA tB (by decide) tA (by decide)

/-! ## Claim C2 -/

/-- C2 counterexample — On the cyclic input `A{b:B}`, `B{a:A}` dependency
resolution does not fail: `sort_deps` returns the complete order `[B, A]`
and schema text is produced. -/
theorem cycle_no_failure :
    sort_deps [cA, cB] = [cB, cA] ∧
      generate_schema_text [] [cA, cB] [] ≠ "" := by
  refine ⟨by decide, by decide⟩

/-- C2 amended — On a cyclic record set the resolver does not fail with a
`CyclicDependency` error (there is no cycle check: an already-seen node is
skipped): every record is emitted exactly once and full schema text is
produced.  For `A{b:B}`, `B{a:A}` the order is `[B, A]`. -/
theorem cycle_emits_all_once :
    sort_deps [cA, cB] = [cB, cA] ∧
      (Names (sort_deps [cA, cB])).Nodup ∧
      generate_schema_text [] [cA, cB] [] =
        "@0xabcdefabcdefabcdef;\n\nstruct B \x7b\n  a @0 :A;\n\x7d\n\nstruct A \x7b\n  b @0 :B;\n\x7d\n\n" := by
  refine ⟨by decide, by decide, by decide⟩

/-! ## Claim C3 -/

/-- C3 counterexample — `to_camel_case` with `is_type = false` does not
lowercase a leading capital: the sum type `{Idle, Error(u32)}` is emitted as
a struct whose field lines read `Idle @0 :Void;` and `Error @1 :UInt32;`,
not the claimed `idle @0 :Void;` and `error @1 :UInt32;`. -/
theorem sum_type_casing_counterexample :
    to_camel_case "Idle" false = "Idle" ∧
      mk_enum .capnp "Status" [("Idle", .unit), ("Error", .unnamed [.path "u32" []])] =
        .ok statusEnum ∧
      enumSection statusEnum =
        "struct Status \x7b\n  Idle @0 :Void;\n  Error @1 :UInt32;\n\x7d\n\n" ∧
      enumSection statusEnum ≠
        "struct Status \x7b\n  idle @0 :Void;\n  error @1 :UInt32;\n\x7d\n\n" := by
  refine ⟨rfl, rfl, rfl, by decide⟩

/-- C3 amended — A sum type with at least one payload-carrying variant is
emitted as a `struct` (not an `enum`) with one field per variant at its
positional ordinal and `Void` for payload-less variants; the field names
pass through `to_camel_case` with `is_type = false`, which capitalizes after
underscores but does not lowercase a leading capital, so `{Idle, Error(u32)}`
yields the lines `Idle @0 :Void;` and `Error @1 :UInt32;`. -/
theorem sum_type_struct_rendering :
    (∀ e : CapnpEnum, e.variants.any (fun v => v.2.isSome) = true →
      ∃ body, enumSection e = "struct " ++ e.name ++ " \x7b\n" ++ body ++ "\x7d\n\n") ∧
    mk_enum .capnp "Status" [("Idle", .unit), ("Error", .unnamed [.path "u32" []])] =
      .ok statusEnum ∧
    enumSection statusEnum =
      "struct Status \x7b\n  Idle @0 :Void;\n  Error @1 :UInt32;\n\x7d\n\n" := by
  refine ⟨?_, rfl, rfl⟩
  intro e he
  simp only [enumSection, he, if_true]
  exact ⟨_, rfl⟩

/-- C3 witness — Applying the payload case to the `{Idle, Error(u32)}`
example. -/
theorem sum_type_struct_rendering_witness :
    ∃ body, enumSection statusEnum =
      "struct " ++ statusEnum.name ++ " \x7b\n" ++ body ++ "\x7d\n\n" :=
  sum_type_struct_rendering.1 statusEnum (by decide)

/-! ## Claim C4 -/

/-- C4 counterexample — A field referencing a type available only for the
alternate (serde) serialization mode is mapped to a first-class reference
and rendered as the bare type name, not as `List(UInt8)`. -/
theorem opaque_only_renders_name :
    map_ty .serde (.path "Meta" []) = .ok (.structRef "Meta") ∧
      (CapnpType.structRef "Meta").render = "Meta" ∧
      (CapnpType.structRef "Meta").render ≠ "List(UInt8)" := by
  refine ⟨rfl, rfl, by decide⟩

/-- C4 amended — A declaration carrying both attributes is classified
`Both`; a field referencing any non-builtin type name always maps to a
first-class `Struct` reference rendered as the bare name, regardless of the
referenced type's registration — there is no `List(UInt8)` byte collapse.
`SerdeOnly` arises only for map/set container types under serde mode and
also renders as the bare container name. -/
theorem registry_no_bytes_collapse :
    ser_type_of true true = some .both ∧
    (∀ (ser : SerializationType) (n : String),
      n ∉ (["String", "u32", "u64", "bool", "Option", "Vec",
            "HashMap", "BTreeMap", "HashSet", "BTreeSet"] : List String) →
      map_ty ser (.path n []) = .ok (.structRef n)) ∧
    (∀ n, (CapnpType.structRef n).render = n) ∧
    map_ty .serde (.path "HashMap" []) = .ok (.serdeOnly "HashMap") ∧
    (CapnpType.serdeOnly "HashMap").render = "HashMap" := by
  refine ⟨rfl, ?_, fun n => rfl, rfl, rfl⟩
  intro ser n hn
  simp only [List.mem_cons, List.not_mem_nil, or_false, not_or] at hn
  obtain ⟨h1, h2, h3, h4, h5, h6, h7, h8, h9, h10⟩ := hn
  simp [map_ty, h1, h2, h3, h4, h5, h6, h7, h8, h9, h10]

/-- C4 witness — A serde-only struct type referenced from a field renders
first-class. -/
theorem registry_no_bytes_collapse_witness :
    map_ty .serde (.path "Widget" []) = .ok (.structRef "Widget") :=
  registry_no_bytes_collapse.2.1 .serde "Widget" (by decide)

/-! ## Claim C5 -/

/-- C5 — The emitter prints the literal ordinal `@0` for every interface
method: in a two-method interface both methods appear at `@0`, not at their
positional ordinals `@0` and `@1`. -/
theorem interface_methods_all_at_zero :
    interfaceSection calcIfc =
      "interface Calc \x7b\n  add @0 (x :UInt32) -> UInt32;\n  reset @0 ();\n\x7d\n\n" := by
  rfl

/-! ## Claim C6 -/

/-- C6 counterexample — A 32-bit float field does not map to
`Primitive(Float32)`: `f32` falls through to the catch-all and becomes the
record reference `Struct("f32")`. -/
theorem float_not_primitive :
    map_ty .capnp (.path "f32" []) = .ok (.structRef "f32") ∧
      ¬ map_ty .capnp (.path "f32" []) = .ok (.primitive "Float32") := by
  refine ⟨rfl, ?_⟩
  intro h
  rw [show map_ty .capnp (.path "f32" []) = Except.ok (CapnpType.structRef "f32")
    from rfl] at h
  exact absurd (Except.ok.inj h) (by decide)

/-- C6 amended — The mapper sends text, u32, u64 and bool 1:1 to their IDL
keywords, but `f32` and `f64` are not recognized primitives: they fall to
the catch-all and map to record references `Struct("f32")`/`Struct("f64")`,
not to `Float32`/`Float64`. -/
theorem primitive_mapping_table :
    ∀ ser : SerializationType,
      map_ty ser (.path "String" []) = .ok (.primitive "Text") ∧
      map_ty ser (.path "u32" []) = .ok (.primitive "UInt32") ∧
      map_ty ser (.path "u64" []) = .ok (.primitive "UInt64") ∧
      map_ty ser (.path "bool" []) = .ok (.primitive "Bool") ∧
      map_ty ser (.path "f32" []) = .ok (.structRef "f32") ∧
      map_ty ser (.path "f64" []) = .ok (.structRef "f64") :=
  fun _ => ⟨rfl, rfl, rfl, rfl, rfl, rfl⟩

/-! ## Claim C7 -/

/-- C7 — An `Option<u32>` field maps to `Optional(Primitive UInt32)` and
renders as the inline two-branch union block with `value @0 :UInt32;` and
`none @1 :Void;`; in a struct section the field line carries the whole
block. -/
theorem optional_union_rendering :
    (∀ ser : SerializationType,
      map_ty ser (.path "Option" [.path "u32" []]) =
        .ok (.optional (.primitive "UInt32"))) ∧
    (CapnpType.optional (.primitive "UInt32")).render =
      "union \x7b\n  value @0 :UInt32;\n  none @1 :Void;\n\x7d" ∧
    structSection optStruct =
      "struct P \x7b\n  meta @2 :union \x7b\n  value @0 :UInt32;\n  none @1 :Void;\n\x7d;\n\x7d\n\n" :=
  ⟨fun _ => rfl, rfl, rfl⟩

/-! ## Claim C8 -/

/-- C8 counterexample — A struct-style (named-field) variant with two
payload fields does not make generation fail: `mk_enum` succeeds and treats
the variant as payload-less. -/
theorem named_variant_no_failure :
    mk_enum .capnp "E"
        [("V", .named [("a", .path "u32" []), ("b", .path "u32" [])])] =
      .ok namedEnum ∧
    ¬ mk_enum .capnp "E"
        [("V", .named [("a", .path "u32" []), ("b", .path "u32" [])])] =
      .error .multiFieldVariant := by
  refine ⟨rfl, ?_⟩
  intro h
  rw [show mk_enum .capnp "E"
      [("V", .named [("a", .path "u32" []), ("b", .path "u32" [])])] =
      Except.ok namedEnum from rfl] at h
  exact Except.noConfusion h

/-- C8 amended — Only tuple-style (unnamed) variants with more than one
payload field make generation fail with `MultiFieldVariant` (assuming the
preceding variants process without error); struct-style (named-field)
variants of any arity are silently treated as payload-less rather than
rejected. -/
theorem multi_field_variant_tuple_only :
    (∀ (ser : SerializationType) (name : String)
        (pre : List (String × VariantFields)) (v : String)
        (tys : List HostType) (post : List (String × VariantFields)),
      (∃ l, mk_variants ser pre = .ok l) → 1 < tys.length →
      mk_enum ser name (pre ++ (v, .unnamed tys) :: post) =
        .error .multiFieldVariant) ∧
    (∀ (ser : SerializationType) (v : String) (flds : List (String × HostType)),
      mk_enum_variant ser (v, .named flds) = .ok (to_camel_case v false, none)) := by
  constructor
  · intro ser name pre v tys post hpre htys
    obtain ⟨l, hl⟩ := hpre
    have hv : mk_enum_variant ser (v, .unnamed tys) = .error .multiFieldVariant := by
      cases tys with
      | nil => exact absurd htys (by decide)
      | cons t1 tl =>
          cases tl with
          | nil => exact absurd htys (by simp)
          | cons t2 tl2 => rfl
    have herr : mk_variants ser ((v, .unnamed tys) :: post) =
        .error .multiFieldVariant := by
      rw [mk_variants, hv]
    have hfull : mk_variants ser (pre ++ (v, .unnamed tys) :: post) =
        .error .multiFieldVariant := by
      clear hv htys
      induction pre generalizing l with
      | nil => simpa using herr
      | cons p pre ih =>
          rw [List.cons_append, mk_variants]
          rw [mk_variants] at hl
          cases hc : mk_enum_variant ser p with
          | error e =>
              rw [hc] at hl
              exact Except.noConfusion hl
          | ok c =>
              rw [hc] at hl
              cases hr : mk_variants ser pre with
              | error e =>
                  rw [hr] at hl
                  exact Except.noConfusion hl
              | ok cs =>
                  rw [ih cs hr]
    show (mk_variants ser (pre ++ (v, .unnamed tys) :: post)).map _ =
      Except.error GenError.multiFieldVariant
    rw [hfull]
    rfl
  · intro ser v flds
    rfl

/-- C8 witness — A two-field tuple variant after a clean unit variant. -/
theorem multi_field_variant_tuple_only_witness :
    mk_enum .capnp "E2"
        [("Ok", .unit), ("Bad", .unnamed [.path "u32" [], .path "bool" []])] =
      .error .multiFieldVariant :=
  multi_field_variant_tuple_only.1 .capnp "E2" [("Ok", .unit)] "Bad"
    [.path "u32" [], .path "bool" []] [] ⟨[("Ok", none)], rfl⟩ (by decide)

/-! ## Claim C9 -/

/-- C9 — Schema generation is a pure function of the declaration lists: two
runs on the same input produce identical text, and every run begins with the
fixed file-identifier header. -/
theorem generation_deterministic :
    ∀ (enums : List CapnpEnum) (structs : List CapnpStruct)
      (interfaces : List CapnpInterface),
      generate_schema_text enums structs interfaces =
        generate_schema_text enums structs interfaces ∧
      ∃ rest, generate_schema_text enums structs interfaces =
        "@0xabcdefabcdefabcdef;\n\n" ++ rest := by
  intro e s i
  refine ⟨rfl, ⟨String.join (e.map enumSection) ++
    (String.join ((sort_deps s).map structSection) ++
      String.join (i.map interfaceSection)), ?_⟩⟩
  show "@0xabcdefabcdefabcdef;\n\n" ++ String.join (e.map enumSection) ++
      String.join ((sort_deps s).map structSection) ++
      String.join (i.map interfaceSection) = _
  rw [String.append_assoc, String.append_assoc]

end Capnez
